import Mathlib

/-!
Verification development for the Shenandoah full-GC sliding mark-compact
collector (shenandoahMarkCompact.cpp). The data model and the operations
of the four compaction phases are embedded shallowly: heap words and
region indices are natural numbers, machine memory and the Brooks
forwarding table are functions from addresses to words, and the stateful
closures of the source become explicit state-passing functions.

Definitions are translated from shenandoahMarkCompact.cpp. Operations of
collaborator classes that are declared elsewhere in the repository
(ShenandoahHeapRegion state transitions, ShenandoahHeapRegionSet,
BrooksPointer, Copy) are modelled from the specification; each such
definition says so in its doc comment.
-/

/-- Word size of the Brooks forwarding-pointer header that precedes every
object (BrooksPointer::word_size). One machine word. -/
def fwdHeaderSize : Nat := 1

/-- Modelled from the spec: the region states of the region state machine
(regular, humongous start/continuation, cset, trash, empty committed,
empty uncommitted, pinned); ShenandoahHeapRegion is not part of the
sources at hand. -/
inductive RegionState where
  | empty_uncommitted
  | empty_committed
  | regular
  | humongous_start
  | humongous_continuation
  | cset
  | pinned
  | trash
  deriving DecidableEq

/-- A heap region: fixed bounds bottom/rend, high watermark top, the
scratch new_top used by Phases 2 and 4, a state, live data, and the
per-region mark bookkeeping reset during Prepare (next-top-at-mark-start
and the concurrent-iteration safe limit, modelled per region since the
heap-side arrays are indexed one-to-one by region). -/
structure Region where
  bottom : Nat
  top : Nat
  rend : Nat
  new_top : Nat
  state : RegionState
  live_data : Nat
  next_top_at_mark_start : Nat
  safe_limit : Nat
  deriving DecidableEq

/-- Modelled from the spec: trash query of the region state machine. -/
abbrev Region.is_trash (r : Region) : Prop := r.state = RegionState.trash

/-- Modelled from the spec: a region is empty when committed-empty or
uncommitted-empty. -/
abbrev Region.is_empty (r : Region) : Prop :=
  r.state = RegionState.empty_committed ∨ r.state = RegionState.empty_uncommitted

/-- Modelled from the spec: regular query. -/
abbrev Region.is_regular (r : Region) : Prop := r.state = RegionState.regular

/-- Modelled from the spec: collection-set query. -/
abbrev Region.is_cset (r : Region) : Prop := r.state = RegionState.cset

/-- Modelled from the spec: humongous-start query. -/
abbrev Region.is_humongous_start (r : Region) : Prop :=
  r.state = RegionState.humongous_start

/-- Modelled from the spec: humongous-continuation query. -/
abbrev Region.is_humongous_continuation (r : Region) : Prop :=
  r.state = RegionState.humongous_continuation

/-- Modelled from the spec: a humongous region is a start or a
continuation region. -/
abbrev Region.is_humongous (r : Region) : Prop :=
  r.is_humongous_start ∨ r.is_humongous_continuation

/-- Modelled from the spec: an active region is neither empty nor trash
(it can hold or receive data). -/
abbrev Region.is_active (r : Region) : Prop := ¬ r.is_empty ∧ ¬ r.is_trash

/-- Modelled from the spec: only regular and cset regions are
move-allowed in mark-compact; humongous regions are never move-allowed
here. -/
abbrev Region.is_move_allowed (r : Region) : Prop := r.is_regular ∨ r.is_cset

/-- Modelled from the spec: allocation is allowed in empty and regular
regions. -/
abbrev Region.is_alloc_allowed (r : Region) : Prop := r.is_empty ∨ r.is_regular

/-- Used bytes of a region: top - bottom. -/
def Region.used (r : Region) : Nat := r.top - r.bottom

/-- Modelled from the spec: recycling a trash region releases its
contents and marks it committed-empty. -/
def Region.recycle (r : Region) : Region :=
  { r with state := RegionState.empty_committed, top := r.bottom, live_data := 0 }

/-- Modelled from the spec: promote a region straight to regular,
bypassing the usual allocation path. -/
def Region.make_regular_bypass (r : Region) : Region :=
  { r with state := RegionState.regular }

/-- Modelled from the spec: mark a region as trash. -/
def Region.make_trash (r : Region) : Region :=
  { r with state := RegionState.trash }

/-- Region setter for new_top (set_new_top). -/
def Region.set_new_top (r : Region) (x : Nat) : Region := { r with new_top := x }

/-- Region setter for top (set_top). -/
def Region.set_top (r : Region) (x : Nat) : Region := { r with top := x }

/-- Modelled from the spec: a ShenandoahHeapRegionSet is an ordered set
of regions (here region indices) with a traversal cursor; add_region
appends, current_then_next reads at the cursor and advances it. -/
structure RegionSet where
  items : List Nat
  cursor : Nat
  deriving DecidableEq

/-- Modelled from the spec: read the element at the cursor (none when
the set is exhausted) and advance the cursor past it; a failed read
leaves the set unchanged, so regions appended afterwards remain
reachable by later reads. -/
def RegionSet.current_then_next (s : RegionSet) : Option Nat × RegionSet :=
  match s.items[s.cursor]? with
  | some i => (some i, { s with cursor := s.cursor + 1 })
  | none => (none, s)

/-- Modelled from the spec: append a region to the set. -/
def RegionSet.add_region (s : RegionSet) (i : Nat) : RegionSet :=
  { s with items := s.items ++ [i] }

/-- The not-yet-traversed part of a region set. -/
def RegionSet.remaining (s : RegionSet) : List Nat := s.items.drop s.cursor

theorem pop_items (s : RegionSet) : s.current_then_next.2.items = s.items := by
  rcases hg : s.items[s.cursor]? with _ | i <;>
    simp [RegionSet.current_then_next, hg]

theorem remaining_pop (s : RegionSet) :
    s.current_then_next.2.remaining = s.remaining.tail := by
  rcases hg : s.items[s.cursor]? with _ | i
  · have hlen : s.items.length ≤ s.cursor := List.getElem?_eq_none_iff.mp hg
    have hnil : s.remaining = [] := by
      simp only [RegionSet.remaining, List.drop_eq_nil_iff]
      omega
    simp [RegionSet.current_then_next, hg, hnil]
  · simp [RegionSet.current_then_next, hg, RegionSet.remaining, List.tail_drop]

/-- Pointwise update of a region table at one index. -/
def updR (f : Nat → Region) (i : Nat) (r : Region) : Nat → Region :=
  fun j => if j = i then r else f j

/-- State of the Phase 2 sliding planner
(ShenandoahPrepareForCompactionObjectClosure together with the region
table and the Brooks forwarding table it writes): the current target
region and compact point, the from-region being walked, and the slice's
auxiliary empty-regions set. -/
structure PState where
  regions : Nat → Region
  fwd : Nat → Nat
  empty_regions : RegionSet
  to_region : Nat
  from_region : Nat
  compact_point : Nat

/-- ShenandoahPrepareForCompactionObjectClosure::finish_region: record
the final compact point as the target region's new_top. -/
def PState.finish_region (st : PState) : PState :=
  { st with
    regions := updR st.regions st.to_region
      ((st.regions st.to_region).set_new_top st.compact_point) }

/-- ShenandoahPrepareForCompactionObjectClosure::do_object for a live
object at address p of size psize words: if the footprint
psize + fwdHeaderSize does not fit before the target region's end,
finish the current target, pop the next empty region (falling back to
the current from-region when exhausted) and reset the compact point to
its bottom; then record the planned target compact_point + fwdHeaderSize
in p's forwarding word and advance the compact point. -/
def PState.do_object (st : PState) (p psize : Nat) : PState :=
  let obj_size := psize + fwdHeaderSize
  let st1 :=
    if (st.regions st.to_region).rend < st.compact_point + obj_size then
      let st' := st.finish_region
      let pop := st'.empty_regions.current_then_next
      let new_to := pop.1.getD st'.from_region
      { st' with
        empty_regions := pop.2
        to_region := new_to
        compact_point := (st'.regions new_to).bottom }
    else st
  { st1 with
    fwd := fun x => if x = p then st1.compact_point + fwdHeaderSize else st1.fwd x
    compact_point := st1.compact_point + obj_size }

/-- The overflow condition of do_object: the object's footprint does not
fit between the compact point and the target region's end. -/
def PState.overflow (st : PState) (psize : Nat) : Prop :=
  (st.regions st.to_region).rend < st.compact_point + (psize + fwdHeaderSize)

/-- The target region do_object switches to when the overflow branch is
taken: the next region of the slice's empty_regions, or the current
from-region when that set is exhausted. -/
def PState.chosenTarget (st : PState) : Nat :=
  (st.empty_regions.current_then_next.1).getD st.from_region

theorem finish_region_fields (st : PState) (i : Nat) :
    (st.finish_region.regions i).bottom = (st.regions i).bottom ∧
    (st.finish_region.regions i).top = (st.regions i).top ∧
    (st.finish_region.regions i).rend = (st.regions i).rend := by
  simp only [PState.finish_region, updR, Region.set_new_top]
  by_cases h : i = st.to_region <;> simp [h]

theorem do_object_not_over (st : PState) (p psize : Nat)
    (h : ¬ st.overflow psize) :
    st.do_object p psize =
      { st with
        fwd := fun x => if x = p then st.compact_point + fwdHeaderSize else st.fwd x
        compact_point := st.compact_point + (psize + fwdHeaderSize) } := by
  simp only [PState.overflow] at h
  simp only [PState.do_object]
  rw [if_neg h]

theorem do_object_over (st : PState) (p psize : Nat)
    (h : st.overflow psize) :
    st.do_object p psize =
      { st.finish_region with
        empty_regions := st.empty_regions.current_then_next.2
        to_region := st.chosenTarget
        fwd := fun x => if x = p then
            (st.finish_region.regions st.chosenTarget).bottom + fwdHeaderSize
          else st.fwd x
        compact_point :=
          (st.finish_region.regions st.chosenTarget).bottom + (psize + fwdHeaderSize) } := by
  simp only [PState.overflow] at h
  simp only [PState.do_object]
  rw [if_pos h]
  rfl

/-- Claim C1: per-object placement rule of the Phase 2 planner. If the
footprint s = psize + fwdHeaderSize fits (compact_point + s ≤
to_region.end), the planned target recorded in p's forwarding word is
compact_point + fwdHeaderSize, the compact point advances by s, and the
target region is unchanged; otherwise the old target region is
finalized with new_top = compact_point, the new target is the next
region popped from empty_regions or the from-region when exhausted, and
the compact point is reset to the new target's bottom before p is
placed there. -/
theorem c1_per_object_placement (st : PState) (p psize : Nat) :
    (st.compact_point + (psize + fwdHeaderSize) ≤ (st.regions st.to_region).rend →
      (st.do_object p psize).fwd p = st.compact_point + fwdHeaderSize ∧
      (st.do_object p psize).compact_point = st.compact_point + (psize + fwdHeaderSize) ∧
      (st.do_object p psize).to_region = st.to_region) ∧
    ((st.regions st.to_region).rend < st.compact_point + (psize + fwdHeaderSize) →
      ((st.do_object p psize).regions st.to_region).new_top = st.compact_point ∧
      (st.do_object p psize).to_region = st.chosenTarget ∧
      (st.do_object p psize).fwd p =
        (st.regions st.chosenTarget).bottom + fwdHeaderSize ∧
      (st.do_object p psize).compact_point =
        (st.regions st.chosenTarget).bottom + (psize + fwdHeaderSize)) := by
  constructor
  · intro hfit
    have hnot : ¬ (st.regions st.to_region).rend < st.compact_point + (psize + fwdHeaderSize) :=
      not_lt.mpr hfit
    simp [PState.do_object, hnot]
  · intro hover
    have hov : st.overflow psize := hover
    have hbot : ((st.finish_region).regions st.chosenTarget).bottom =
        (st.regions st.chosenTarget).bottom := by
      simp only [PState.finish_region, updR, Region.set_new_top]
      by_cases h : st.chosenTarget = st.to_region <;> simp [h]
    rw [do_object_over st p psize hov]
    refine ⟨?_, rfl, ?_, ?_⟩
    · simp [PState.finish_region, updR, Region.set_new_top]
    · show (if p = p then (st.finish_region.regions st.chosenTarget).bottom + fwdHeaderSize
        else st.fwd p) = (st.regions st.chosenTarget).bottom + fwdHeaderSize
      rw [if_pos rfl, hbot]
    · show (st.finish_region.regions st.chosenTarget).bottom + (psize + fwdHeaderSize) =
        (st.regions st.chosenTarget).bottom + (psize + fwdHeaderSize)
      rw [hbot]

/-- Concrete region used by witnesses. -/
def wRegion : Region :=
  { bottom := 0, top := 6, rend := 8, new_top := 0,
    state := RegionState.regular, live_data := 0,
    next_top_at_mark_start := 0, safe_limit := 0 }

/-- Concrete planner state used by witnesses: one region, self-targeted,
compact point at bottom, empty empty-regions set, self-forwarded heap. -/
def wPState : PState :=
  { regions := fun _ => wRegion
    fwd := fun x => x
    empty_regions := { items := [], cursor := 0 }
    to_region := 0
    from_region := 0
    compact_point := 0 }

/-- Witness for C1: a 2-word object at address 1 fits at compact point 0
of the witness state, its forwarding word receives target 1 and the
compact point advances to 3. -/
theorem c1_per_object_placement_witness :
    (wPState.do_object 1 2).fwd 1 = 0 + fwdHeaderSize ∧
    (wPState.do_object 1 2).compact_point = 0 + (2 + fwdHeaderSize) ∧
    (wPState.do_object 1 2).to_region = 0 :=
  (c1_per_object_placement wPState 1 2).1 (by decide)

/-- Order in which marked_object_iterate hands live objects of a region
to a closure: ascending addresses, each object's one-word forwarding
header at or after the previous object's end lo (initially the region's
bottom), so the object address is at least lo + fwdHeaderSize, and the
next bound is the object's end. -/
def objsFrom : Nat → List (Nat × Nat) → Prop
  | _, [] => True
  | lo, o :: rest => lo + fwdHeaderSize ≤ o.1 ∧ objsFrom (o.1 + o.2) rest

instance instDecObjsFrom : (lo : Nat) → (objs : List (Nat × Nat)) → Decidable (objsFrom lo objs)
  | _, [] => isTrue trivial
  | _, o :: rest =>
    have : Decidable (objsFrom (o.1 + o.2) rest) := instDecObjsFrom (o.1 + o.2) rest
    inferInstanceAs (Decidable (_ ∧ _))

/-- A per-step property P holds throughout a run of the Phase 2 planner
over a list of live objects: it holds of the state at the moment each
object is handed to do_object. -/
def stepsOk (P : PState → Nat → Nat → Prop) : PState → List (Nat × Nat) → Prop
  | _, [] => True
  | st, o :: rest => P st o.1 o.2 ∧ stepsOk P (st.do_object o.1 o.2) rest

instance instDecStepsOk (P : PState → Nat → Nat → Prop) [∀ st p s, Decidable (P st p s)] :
    (st : PState) → (objs : List (Nat × Nat)) → Decidable (stepsOk P st objs)
  | _, [] => isTrue trivial
  | st, o :: rest =>
    have : Decidable (stepsOk P (st.do_object o.1 o.2) rest) :=
      instDecStepsOk P (st.do_object o.1 o.2) rest
    inferInstanceAs (Decidable (_ ∧ _))

/-- The safety property of self-compaction checked at each planning
step: when the planner is compacting the from-region into itself the
compact point has not passed the object being planned, and whenever the
overflow branch is taken the newly chosen target region differs from
the old one (the assertion in do_object). -/
def PState.selfSafe (st : PState) (p psize : Nat) : Prop :=
  (st.to_region = st.from_region → st.compact_point ≤ p) ∧
  (st.overflow psize → st.chosenTarget ≠ st.to_region)

instance (st : PState) (p psize : Nat) : Decidable (st.selfSafe p psize) := by
  unfold PState.selfSafe PState.overflow PState.chosenTarget
  infer_instance

theorem chosenTarget_eq (st : PState) :
    st.chosenTarget = st.empty_regions.remaining.head?.getD st.from_region := by
  rcases hg : st.empty_regions.items[st.empty_regions.cursor]? with _ | i <;>
    simp [PState.chosenTarget, RegionSet.current_then_next, RegionSet.remaining,
      List.head?_drop, hg]

/-- Claim C2: self-compaction safety of the Phase 2 planner. Walking the
live objects of the current from-region in ascending order (objsFrom),
with all objects below the from-region's top, the compact point at most
lo whenever the planner is already self-compacting, and the slice's
empty-regions set not containing the current target or from-region and
duplicate-free, every planning step satisfies selfSafe: whenever
to_region equals the from-region the compact point is at most the
object's address, and the assertion that a newly chosen target region
differs from the old target never fails. -/
theorem c2_self_compaction_safe (objs : List (Nat × Nat)) (st : PState) (lo : Nat)
    (hwf : objsFrom lo objs)
    (hin : ∀ o ∈ objs, o.1 + o.2 ≤ (st.regions st.from_region).top)
    (hte : (st.regions st.from_region).top ≤ (st.regions st.from_region).rend)
    (hb : (st.regions st.from_region).bottom ≤ lo)
    (hcp : st.to_region = st.from_region → st.compact_point ≤ lo)
    (hto : st.to_region ∉ st.empty_regions.remaining)
    (hfr : st.from_region ∉ st.empty_regions.remaining)
    (hnd : st.empty_regions.remaining.Nodup) :
    stepsOk PState.selfSafe st objs := by
  induction objs generalizing st lo with
  | nil => trivial
  | cons o rest ih =>
    obtain ⟨hlo, hrest⟩ := hwf
    have hintop : o.1 + o.2 ≤ (st.regions st.from_region).top :=
      hin o (List.mem_cons_self o rest)
    have hnoov : st.to_region = st.from_region → ¬ st.overflow o.2 := by
      intro hself
      have h1 : st.compact_point ≤ lo := hcp hself
      have h2 : (st.regions st.to_region).rend = (st.regions st.from_region).rend := by
        rw [hself]
      simp only [PState.overflow, fwdHeaderSize] at *
      omega
    refine ⟨⟨fun hself => ?_, fun hov => ?_⟩, ?_⟩
    · have h1 := hcp hself
      simp only [fwdHeaderSize] at hlo
      omega
    · by_cases hself : st.to_region = st.from_region
      · exact absurd hov (hnoov hself)
      · rw [chosenTarget_eq]
        rcases hrem : st.empty_regions.remaining with _ | ⟨r, rs⟩
        · simpa using fun h => hself h.symm
        · rw [hrem] at hto
          simp only [List.head?_cons, Option.getD_some]
          simp only [List.mem_cons, not_or] at hto
          exact fun h => hto.1 h.symm
    · by_cases hov : st.overflow o.2
      · rw [do_object_over st o.1 o.2 hov]
        have hrem' : st.empty_regions.current_then_next.2.remaining =
            st.empty_regions.remaining.tail := remaining_pop st.empty_regions
        refine ih _ (o.1 + o.2) hrest ?_ ?_ ?_ ?_ ?_ ?_ ?_
        · intro o' ho'
          have h1 := hin o' (List.mem_cons_of_mem o ho')
          show o'.1 + o'.2 ≤ (st.finish_region.regions st.from_region).top
          rw [(finish_region_fields st st.from_region).2.1]
          exact h1
        · show (st.finish_region.regions st.from_region).top ≤
            (st.finish_region.regions st.from_region).rend
          rw [(finish_region_fields st st.from_region).2.1,
            (finish_region_fields st st.from_region).2.2]
          exact hte
        · show (st.finish_region.regions st.from_region).bottom ≤ o.1 + o.2
          rw [(finish_region_fields st st.from_region).1]
          simp only [fwdHeaderSize] at hlo
          omega
        · intro hself
          have hself' : st.chosenTarget = st.from_region := hself
          show (st.finish_region.regions st.chosenTarget).bottom +
            (o.2 + fwdHeaderSize) ≤ o.1 + o.2
          rw [(finish_region_fields st st.chosenTarget).1, hself']
          rw [chosenTarget_eq] at hself'
          rcases hrem : st.empty_regions.remaining with _ | ⟨r, rs⟩
          · simp only [fwdHeaderSize] at hlo ⊢
            omega
          · rw [hrem] at hself' hfr
            simp only [List.head?_cons, Option.getD_some] at hself'
            simp only [List.mem_cons, not_or] at hfr
            exact absurd hself'.symm hfr.1
        · show st.chosenTarget ∉ st.empty_regions.current_then_next.2.remaining
          rw [hrem', chosenTarget_eq]
          rcases hrem : st.empty_regions.remaining with _ | ⟨r, rs⟩
          · simp
          · rw [hrem] at hnd
            simp only [List.head?_cons, Option.getD_some, List.tail_cons]
            exact (List.nodup_cons.mp hnd).1
        · show st.from_region ∉ st.empty_regions.current_then_next.2.remaining
          rw [hrem']
          rcases hrem : st.empty_regions.remaining with _ | ⟨r, rs⟩
          · simp
          · rw [hrem] at hfr
            simp only [List.mem_cons, not_or] at hfr
            simpa using hfr.2
        · show st.empty_regions.current_then_next.2.remaining.Nodup
          rw [hrem']
          exact hnd.tail
      · rw [do_object_not_over st o.1 o.2 hov]
        refine ih _ (o.1 + o.2) hrest
          (fun o' ho' => hin o' (List.mem_cons_of_mem o ho')) hte ?_ ?_ hto hfr hnd
        · show (st.regions st.from_region).bottom ≤ o.1 + o.2
          simp only [fwdHeaderSize] at hlo
          omega
        · intro hself
          have hself' : st.to_region = st.from_region := hself
          have h1 := hcp hself'
          show st.compact_point + (o.2 + fwdHeaderSize) ≤ o.1 + o.2
          simp only [fwdHeaderSize] at hlo ⊢
          omega

/-- Witness for C2: two objects of the witness state's single region,
walked in ascending order while self-compacting, satisfy every
hypothesis of the safety theorem at concrete values. -/
theorem c2_self_compaction_safe_witness :
    stepsOk PState.selfSafe wPState [(1, 2), (4, 1)] :=
  c2_self_compaction_safe [(1, 2), (4, 1)] wPState 0 (by decide)
    (by decide) (by decide) (by decide) (fun _ => by decide)
    (by decide) (by decide) (by decide)

/-- Iterate the Phase 2 planner over the live objects of one region, in
order (the marked_object_iterate loop body of the prepare task). -/
def foldObjs (st : PState) (objs : List (Nat × Nat)) : PState :=
  objs.foldl (fun s o => s.do_object o.1 o.2) st

/-- One iteration of ShenandoahPrepareForCompactionTask::work for one
claimed from-region: set_from_region, iterate the region's live objects
with do_object, and when the region was compacted to somewhere else add
it to the slice's empty_regions. -/
def PState.processRegion (st : PState) (rid : Nat) (objs : List (Nat × Nat)) : PState :=
  let st1 := foldObjs { st with from_region := rid } objs
  if st1.to_region ≠ st1.from_region then
    { st1 with empty_regions := st1.empty_regions.add_region rid }
  else st1

/-- The main loop of ShenandoahPrepareForCompactionTask::work over the
sequence of from-regions claimed by one worker (each with its live
objects). -/
def PState.workLoop (st : PState) (rs : List (Nat × List (Nat × Nat))) : PState :=
  rs.foldl (fun s r => s.processRegion r.1 r.2) st

/-- Mark one region as empty after Phase 2 planning: new_top becomes
bottom. -/
def markEmptyRegion (f : Nat → Region) (i : Nat) : Nat → Region :=
  updR f i ((f i).set_new_top (f i).bottom)

/-- Tail of ShenandoahPrepareForCompactionTask::work: finish the final
target region, then walk the rest of the slice's empty_regions with
current_then_next and set each one's new_top to its bottom. -/
def PState.finishWork (st : PState) : PState :=
  let st1 := st.finish_region
  { st1 with
    regions := st1.empty_regions.remaining.foldl markEmptyRegion st1.regions
    empty_regions := { st1.empty_regions with cursor := st1.empty_regions.items.length } }

/-- Each claimed from-region whose contents were compacted to a
different region is a member of the slice's empty_regions before the
next from-region is claimed. -/
def appendedOk : PState → List (Nat × List (Nat × Nat)) → Prop
  | _, [] => True
  | st, r :: rest =>
      ((foldObjs { st with from_region := r.1 } r.2).to_region ≠ r.1 →
        r.1 ∈ (st.processRegion r.1 r.2).empty_regions.items) ∧
      appendedOk (st.processRegion r.1 r.2) rest

/-- A per-step property holds at every do_object call across the whole
work loop of one worker slice. -/
def workStepsOk (P : PState → Nat → Nat → Prop) : PState → List (Nat × List (Nat × Nat)) → Prop
  | _, [] => True
  | st, r :: rest =>
      stepsOk P { st with from_region := r.1 } r.2 ∧
      workStepsOk P (st.processRegion r.1 r.2) rest

instance instDecWorkStepsOk (P : PState → Nat → Nat → Prop) [∀ st p s, Decidable (P st p s)] :
    (st : PState) → (rs : List (Nat × List (Nat × Nat))) → Decidable (workStepsOk P st rs)
  | _, [] => isTrue trivial
  | st, r :: rest =>
    have : Decidable (workStepsOk P (st.processRegion r.1 r.2) rest) :=
      instDecWorkStepsOk P (st.processRegion r.1 r.2) rest
    inferInstanceAs (Decidable (_ ∧ _))

/-- The addresses of all live objects of a slice, in processing order. -/
def sliceAddrs (slice : List (Nat × List (Nat × Nat))) : List Nat :=
  (slice.map (fun r => r.2.map Prod.fst)).flatten

/-- Loop invariant of the Phase 2 work loop: the untraversed part of
the slice's empty_regions set is duplicate-free and contains neither
the current target region nor any not-yet-claimed from-region of
pending. -/
def PState.winv (st : PState) (pending : List Nat) : Prop :=
  st.empty_regions.remaining.Nodup ∧
  st.to_region ∉ st.empty_regions.remaining ∧
  ∀ j ∈ st.empty_regions.items, j ∉ pending

theorem do_object_from_region (st : PState) (p psize : Nat) :
    (st.do_object p psize).from_region = st.from_region := by
  by_cases h : st.overflow psize
  · rw [do_object_over st p psize h]
    rfl
  · rw [do_object_not_over st p psize h]

theorem do_object_items (st : PState) (p psize : Nat) :
    (st.do_object p psize).empty_regions.items = st.empty_regions.items := by
  by_cases h : st.overflow psize
  · rw [do_object_over st p psize h]
    exact pop_items st.empty_regions
  · rw [do_object_not_over st p psize h]

theorem do_object_fwd_other (st : PState) (p psize x : Nat) (hx : x ≠ p) :
    (st.do_object p psize).fwd x = st.fwd x := by
  by_cases h : st.overflow psize
  · rw [do_object_over st p psize h]
    simp [hx]
  · rw [do_object_not_over st p psize h]
    simp [hx]

theorem foldObjs_from (st : PState) (objs : List (Nat × Nat)) :
    (foldObjs st objs).from_region = st.from_region := by
  induction objs generalizing st with
  | nil => rfl
  | cons o rest ih =>
    show (foldObjs (st.do_object o.1 o.2) rest).from_region = st.from_region
    rw [ih, do_object_from_region]

theorem foldObjs_items (st : PState) (objs : List (Nat × Nat)) :
    (foldObjs st objs).empty_regions.items = st.empty_regions.items := by
  induction objs generalizing st with
  | nil => rfl
  | cons o rest ih =>
    show (foldObjs (st.do_object o.1 o.2) rest).empty_regions.items =
      st.empty_regions.items
    rw [ih, do_object_items]

theorem do_object_winv (st : PState) (p psize : Nat) (pending : List Nat)
    (h : st.winv pending) :
    (st.do_object p psize).winv pending := by
  obtain ⟨hnd, hto, hit⟩ := h
  by_cases hov : st.overflow psize
  · rw [do_object_over st p psize hov]
    have hrem' : st.empty_regions.current_then_next.2.remaining =
        st.empty_regions.remaining.tail := remaining_pop st.empty_regions
    refine ⟨?_, ?_, ?_⟩
    · show st.empty_regions.current_then_next.2.remaining.Nodup
      rw [hrem']
      exact hnd.tail
    · show st.chosenTarget ∉ st.empty_regions.current_then_next.2.remaining
      rw [hrem', chosenTarget_eq]
      rcases hrem : st.empty_regions.remaining with _ | ⟨r, rs⟩
      · simp
      · rw [hrem] at hnd
        simp only [List.head?_cons, Option.getD_some, List.tail_cons]
        exact (List.nodup_cons.mp hnd).1
    · show ∀ j ∈ st.empty_regions.current_then_next.2.items, j ∉ pending
      rw [pop_items]
      exact hit
  · rw [do_object_not_over st p psize hov]
    exact ⟨hnd, hto, hit⟩

theorem foldObjs_winv (objs : List (Nat × Nat)) (st : PState) (pending : List Nat)
    (h : st.winv pending) :
    (foldObjs st objs).winv pending := by
  induction objs generalizing st with
  | nil => exact h
  | cons o rest ih =>
    show (foldObjs (st.do_object o.1 o.2) rest).winv pending
    exact ih _ (do_object_winv st o.1 o.2 pending h)

theorem remaining_subset_items (s : RegionSet) : ∀ x ∈ s.remaining, x ∈ s.items :=
  fun _ hx => List.drop_subset s.cursor s.items hx

theorem processRegion_winv (st : PState) (rid : Nat) (objs : List (Nat × Nat))
    (pending : List Nat) (h : st.winv (rid :: pending)) (hrid : rid ∉ pending) :
    (st.processRegion rid objs).winv pending := by
  have h0 : PState.winv { st with from_region := rid } (rid :: pending) := h
  have h1 := foldObjs_winv objs { st with from_region := rid } (rid :: pending) h0
  obtain ⟨hnd1, hto1, hit1⟩ := h1
  have hitems : (foldObjs { st with from_region := rid } objs).empty_regions.items =
      st.empty_regions.items := foldObjs_items _ _
  simp only [PState.processRegion]
  split
  · rename_i hne
    have hfr : (foldObjs { st with from_region := rid } objs).from_region = rid :=
      foldObjs_from _ _
    rw [hfr] at hne
    have hridit : rid ∉ (foldObjs { st with from_region := rid } objs).empty_regions.items := by
      intro hmem
      exact (hit1 rid hmem) (List.mem_cons_self rid pending)
    have hremadd : RegionSet.remaining
        ((foldObjs { st with from_region := rid } objs).empty_regions.add_region rid) =
          (foldObjs { st with from_region := rid } objs).empty_regions.remaining ++ [rid] ∨
        RegionSet.remaining
        ((foldObjs { st with from_region := rid } objs).empty_regions.add_region rid) = [] := by
      simp only [RegionSet.add_region, RegionSet.remaining]
      by_cases hc : (foldObjs { st with from_region := rid } objs).empty_regions.cursor ≤
          (foldObjs { st with from_region := rid } objs).empty_regions.items.length
      · left
        exact List.drop_append_of_le_length hc
      · right
        rw [List.drop_eq_nil_iff]
        simp only [List.length_append, List.length_singleton]
        omega
    refine ⟨?_, ?_, ?_⟩
    · rcases hremadd with heq | heq
      · show (RegionSet.remaining _).Nodup
        rw [heq]
        rw [List.nodup_append]
        refine ⟨hnd1, List.nodup_singleton rid, ?_⟩
        intro x hx hx1
        simp only [List.mem_singleton] at hx1
        subst hx1
        exact hridit (remaining_subset_items _ x hx)
      · show (RegionSet.remaining _).Nodup
        rw [heq]
        exact List.nodup_nil
    · rcases hremadd with heq | heq
      · show (foldObjs { st with from_region := rid } objs).to_region ∉ RegionSet.remaining _
        rw [heq]
        simp only [List.mem_append, List.mem_singleton, not_or]
        exact ⟨hto1, hne⟩
      · show (foldObjs { st with from_region := rid } objs).to_region ∉ RegionSet.remaining _
        rw [heq]
        exact List.not_mem_nil _
    · intro j hj
      simp only [RegionSet.add_region, List.mem_append, List.mem_singleton] at hj
      rcases hj with hj | hj
      · intro hp
        exact (hit1 j hj) (List.mem_cons_of_mem rid hp)
      · subst hj
        exact hrid
  · refine ⟨hnd1, hto1, ?_⟩
    intro j hj hp
    exact (hit1 j hj) (List.mem_cons_of_mem rid hp)

theorem workLoop_winv (slice : List (Nat × List (Nat × Nat))) (st : PState)
    (h : st.winv (slice.map Prod.fst)) (hnd : (slice.map Prod.fst).Nodup) :
    (st.workLoop slice).winv [] := by
  induction slice generalizing st with
  | nil =>
    obtain ⟨h1, h2, h3⟩ := h
    exact ⟨h1, h2, fun j hj => List.not_mem_nil j⟩
  | cons r rest ih =>
    simp only [List.map_cons, List.nodup_cons] at hnd
    show ((st.processRegion r.1 r.2).workLoop rest).winv []
    refine ih _ (processRegion_winv st r.1 r.2 (rest.map Prod.fst) h ?_) hnd.2
    exact hnd.1

theorem markEmptyRegion_bottom (f : Nat → Region) (i j : Nat) :
    ((markEmptyRegion f i) j).bottom = (f j).bottom := by
  simp only [markEmptyRegion, updR, Region.set_new_top]
  by_cases h : j = i <;> simp [h]

theorem foldl_markEmpty_not_mem (l : List Nat) (f : Nat → Region) (i : Nat) (h : i ∉ l) :
    l.foldl markEmptyRegion f i = f i := by
  induction l generalizing f with
  | nil => rfl
  | cons j l' ih =>
    simp only [List.mem_cons, not_or] at h
    show (l'.foldl markEmptyRegion (markEmptyRegion f j)) i = f i
    rw [ih _ h.2]
    simp only [markEmptyRegion, updR, Region.set_new_top]
    rw [if_neg h.1]

theorem foldl_markEmpty_mem (l : List Nat) (f : Nat → Region) (i : Nat) (h : i ∈ l) :
    ((l.foldl markEmptyRegion f) i).new_top = (f i).bottom := by
  induction l generalizing f with
  | nil => exact absurd h (List.not_mem_nil i)
  | cons j l' ih =>
    show ((l'.foldl markEmptyRegion (markEmptyRegion f j)) i).new_top = (f i).bottom
    by_cases hm : i ∈ l'
    · rw [ih _ hm, markEmptyRegion_bottom]
    · rcases List.mem_cons.mp h with heq | hm'
      · subst heq
        rw [foldl_markEmpty_not_mem l' _ i hm]
        simp [markEmptyRegion, updR, Region.set_new_top]
      · exact absurd hm' hm

theorem appendedOk_all (slice : List (Nat × List (Nat × Nat))) (st : PState) :
    appendedOk st slice := by
  induction slice generalizing st with
  | nil => trivial
  | cons r rest ih =>
    refine ⟨fun hne => ?_, ih _⟩
    simp only [PState.processRegion]
    split
    · simp [RegionSet.add_region]
    · rename_i hc
      have hf : (foldObjs { st with from_region := r.1 } r.2).from_region = r.1 :=
        foldObjs_from _ _
      rw [hf] at hc
      exact absurd hne hc

/-- Claim C8: when a worker finishes its slice in Phase 2, the final
target region is finalized with new_top = compact_point, every region
remaining in the slice's empty_regions has new_top set to its bottom,
and every claimed from-region that was not self-compacted was added to
the slice's empty_regions before the next from-region was claimed.
Hypotheses: the work-loop invariant holds initially (it does for the
fresh empty_regions set work() allocates) and the claimed from-regions
are pairwise distinct. -/
theorem c8_work_finalization (slice : List (Nat × List (Nat × Nat))) (st0 : PState)
    (hwinv : st0.winv (slice.map Prod.fst))
    (hnd : (slice.map Prod.fst).Nodup) :
    (((st0.workLoop slice).finishWork).regions (st0.workLoop slice).to_region).new_top
        = (st0.workLoop slice).compact_point ∧
    (∀ i ∈ (st0.workLoop slice).empty_regions.remaining,
      (((st0.workLoop slice).finishWork).regions i).new_top
        = ((st0.workLoop slice).regions i).bottom) ∧
    appendedOk st0 slice := by
  obtain ⟨hndF, htoF, _⟩ := workLoop_winv slice st0 hwinv hnd
  refine ⟨?_, ?_, appendedOk_all slice st0⟩
  · show (((st0.workLoop slice).finish_region.empty_regions.remaining.foldl markEmptyRegion
      (st0.workLoop slice).finish_region.regions) (st0.workLoop slice).to_region).new_top
      = (st0.workLoop slice).compact_point
    have hrem : (st0.workLoop slice).finish_region.empty_regions.remaining =
        (st0.workLoop slice).empty_regions.remaining := rfl
    rw [hrem, foldl_markEmpty_not_mem _ _ _ htoF]
    simp [PState.finish_region, updR, Region.set_new_top]
  · intro i hi
    show (((st0.workLoop slice).finish_region.empty_regions.remaining.foldl markEmptyRegion
      (st0.workLoop slice).finish_region.regions) i).new_top
      = ((st0.workLoop slice).regions i).bottom
    have hrem : (st0.workLoop slice).finish_region.empty_regions.remaining =
        (st0.workLoop slice).empty_regions.remaining := rfl
    rw [hrem, foldl_markEmpty_mem _ _ _ hi]
    exact (finish_region_fields (st0.workLoop slice) i).1

/-- Witness for C8 at a concrete two-region slice: region 0 with two
objects and region 1 with one object, starting from the state work()
creates (fresh empty set, target = first claimed region). -/
theorem c8_work_finalization_witness :
    ((((wPState.workLoop [(0, [(1, 2), (4, 1)]), (1, [(9, 1)])]).finishWork).regions
        (wPState.workLoop [(0, [(1, 2), (4, 1)]), (1, [(9, 1)])]).to_region).new_top
      = (wPState.workLoop [(0, [(1, 2), (4, 1)]), (1, [(9, 1)])]).compact_point) ∧
    (∀ i ∈ (wPState.workLoop [(0, [(1, 2), (4, 1)]), (1, [(9, 1)])]).empty_regions.remaining,
      (((wPState.workLoop [(0, [(1, 2), (4, 1)]), (1, [(9, 1)])]).finishWork).regions i).new_top
        = ((wPState.workLoop [(0, [(1, 2), (4, 1)]), (1, [(9, 1)])]).regions i).bottom) ∧
    appendedOk wPState [(0, [(1, 2), (4, 1)]), (1, [(9, 1)])] :=
  c8_work_finalization [(0, [(1, 2), (4, 1)]), (1, [(9, 1)])] wPState
    (by refine ⟨by decide, by decide, ?_⟩; intro j hj; simp [wPState] at hj) (by decide)

theorem sliceAddrs_cons (r : Nat × List (Nat × Nat)) (rest : List (Nat × List (Nat × Nat))) :
    sliceAddrs (r :: rest) = r.2.map Prod.fst ++ sliceAddrs rest := by
  simp [sliceAddrs]

theorem processRegion_fwd (st : PState) (rid : Nat) (objs : List (Nat × Nat)) :
    (st.processRegion rid objs).fwd = (foldObjs { st with from_region := rid } objs).fwd := by
  simp only [PState.processRegion]
  split <;> rfl

theorem foldObjs_fwdSelf (objs : List (Nat × Nat)) (st : PState)
    (hnd : (objs.map Prod.fst).Nodup)
    (hself : ∀ a ∈ objs.map Prod.fst, st.fwd a = a) :
    stepsOk (fun s p _ => s.fwd p = p) st objs ∧
    ∀ y, y ∉ objs.map Prod.fst → (foldObjs st objs).fwd y = st.fwd y := by
  induction objs generalizing st with
  | nil => exact ⟨trivial, fun _ _ => rfl⟩
  | cons o rest ih =>
    simp only [List.map_cons, List.nodup_cons] at hnd
    have hhead : st.fwd o.1 = o.1 := hself o.1 (by simp)
    have hrest : ∀ a ∈ rest.map Prod.fst, (st.do_object o.1 o.2).fwd a = a := by
      intro a ha
      have hne : a ≠ o.1 := fun hh => hnd.1 (hh ▸ ha)
      rw [do_object_fwd_other st o.1 o.2 a hne]
      exact hself a (by simp [ha])
    obtain ⟨hs, hp⟩ := ih (st.do_object o.1 o.2) hnd.2 hrest
    refine ⟨⟨hhead, hs⟩, ?_⟩
    intro y hy
    simp only [List.map_cons, List.mem_cons, not_or] at hy
    show (foldObjs (st.do_object o.1 o.2) rest).fwd y = st.fwd y
    rw [hp y hy.2, do_object_fwd_other st o.1 o.2 y hy.1]

theorem workLoop_fwdSelf (slice : List (Nat × List (Nat × Nat))) (st : PState)
    (hnd : (sliceAddrs slice).Nodup)
    (hself : ∀ a ∈ sliceAddrs slice, st.fwd a = a) :
    workStepsOk (fun s p _ => s.fwd p = p) st slice ∧
    ∀ y, y ∉ sliceAddrs slice → (st.workLoop slice).fwd y = st.fwd y := by
  induction slice generalizing st with
  | nil => exact ⟨trivial, fun _ _ => rfl⟩
  | cons r rest ih =>
    rw [sliceAddrs_cons] at hnd hself
    rw [List.nodup_append] at hnd
    obtain ⟨hndA, hndB, hdisj⟩ := hnd
    have hselfA : ∀ a ∈ r.2.map Prod.fst, ({ st with from_region := r.1 } : PState).fwd a = a :=
      fun a ha => hself a (List.mem_append_left _ ha)
    obtain ⟨hsA, hpA⟩ := foldObjs_fwdSelf r.2 { st with from_region := r.1 } hndA hselfA
    have hselfB : ∀ a ∈ sliceAddrs rest, (st.processRegion r.1 r.2).fwd a = a := by
      intro a ha
      rw [processRegion_fwd]
      have hnotA : a ∉ r.2.map Prod.fst := fun hmem => hdisj hmem ha
      rw [hpA a hnotA]
      exact hself a (List.mem_append_right _ ha)
    obtain ⟨hsB, hpB⟩ := ih (st.processRegion r.1 r.2) hndB hselfB
    refine ⟨⟨hsA, hsB⟩, ?_⟩
    intro y hy
    rw [sliceAddrs_cons, List.mem_append, not_or] at hy
    show ((st.processRegion r.1 r.2).workLoop rest).fwd y = st.fwd y
    rw [hpB y hy.2, processRegion_fwd, hpA y hy.1]

/-- Claim C9: implicit precondition of Phase 2 planning. When the
planner starts with every live object of the slice self-forwarded (the
steady state outside GC) and the object addresses are pairwise
distinct, then at every do_object call the object still has a
self-pointing forwarding word (so the expect-forwarded assertion never
fails, and each object's forwarding word is written exactly once by
planning), and planning leaves the forwarding word of every other
address untouched. -/
theorem c9_fwd_self_precondition (slice : List (Nat × List (Nat × Nat))) (st0 : PState)
    (hnd : (sliceAddrs slice).Nodup)
    (hself : ∀ a ∈ sliceAddrs slice, st0.fwd a = a) :
    workStepsOk (fun s p _ => s.fwd p = p) st0 slice ∧
    ∀ y, y ∉ sliceAddrs slice → (st0.workLoop slice).fwd y = st0.fwd y :=
  workLoop_fwdSelf slice st0 hnd hself

/-- Witness for C9 at a concrete slice of two regions over the witness
state, whose forwarding table is the identity. -/
theorem c9_fwd_self_precondition_witness :
    workStepsOk (fun s p _ => s.fwd p = p) wPState [(0, [(1, 2), (4, 1)]), (1, [(9, 1)])] ∧
    ∀ y, y ∉ sliceAddrs [(0, [(1, 2), (4, 1)]), (1, [(9, 1)])] →
      (wPState.workLoop [(0, [(1, 2), (4, 1)]), (1, [(9, 1)])]).fwd y = wPState.fwd y :=
  c9_fwd_self_precondition [(0, [(1, 2), (4, 1)]), (1, [(9, 1)])] wPState
    (by decide) (fun a _ => rfl)

/-- The claim loop of ShenandoahPrepareForCompactionTask::next_from_region
over the not-yet-claimed tail of the global region sequence: claim
regions one at a time, skipping every region that is not move-allowed,
and return the first move-allowed one together with the unclaimed rest
(none when the cursor is exhausted). -/
def claimMoveAllowed (regions : Nat → Region) : List Nat → Option (Nat × List Nat)
  | [] => none
  | i :: rest =>
    if (regions i).is_move_allowed then some (i, rest)
    else claimMoveAllowed regions rest

/-- Repeated next_from_region calls of one worker running the whole
region sequence: the slice is the list of regions claimed and added, in
claim order (fuel-indexed; the fuel is the sequence length). -/
def buildSliceAux (regions : Nat → Region) : Nat → List Nat → List Nat
  | 0, _ => []
  | fuel + 1, l =>
    match claimMoveAllowed regions l with
    | none => []
    | some (i, rest) => i :: buildSliceAux regions fuel rest

/-- The slice of from-regions a single worker accumulates from a region
sequence via next_from_region. -/
def buildSlice (regions : Nat → Region) (l : List Nat) : List Nat :=
  buildSliceAux regions l.length l

theorem move_allowed_not_humongous (r : Region) (h : r.is_move_allowed) :
    ¬ r.is_humongous := by
  rcases h with h | h <;>
    simp [Region.is_humongous, Region.is_humongous_start,
      Region.is_humongous_continuation, h]

theorem claimMoveAllowed_sound (regions : Nat → Region) :
    ∀ (l : List Nat) (i : Nat) (rest : List Nat),
      claimMoveAllowed regions l = some (i, rest) → (regions i).is_move_allowed := by
  intro l
  induction l with
  | nil => intro i rest h; simp [claimMoveAllowed] at h
  | cons j l' ih =>
    intro i rest h
    by_cases hm : (regions j).is_move_allowed
    · simp only [claimMoveAllowed, if_pos hm, Option.some.injEq, Prod.mk.injEq] at h
      rw [← h.1]
      exact hm
    · simp only [claimMoveAllowed, if_neg hm] at h
      exact ih i rest h

theorem claimMoveAllowed_shrinks (regions : Nat → Region) :
    ∀ (l : List Nat) (i : Nat) (rest : List Nat),
      claimMoveAllowed regions l = some (i, rest) → rest.length < l.length := by
  intro l
  induction l with
  | nil => intro i rest h; simp [claimMoveAllowed] at h
  | cons j l' ih =>
    intro i rest h
    by_cases hm : (regions j).is_move_allowed
    · simp only [claimMoveAllowed, if_pos hm, Option.some.injEq, Prod.mk.injEq] at h
      rw [← h.2]
      simp
    · simp only [claimMoveAllowed, if_neg hm] at h
      have := ih i rest h
      simp only [List.length_cons]
      omega

theorem buildSliceAux_sound (regions : Nat → Region) :
    ∀ (fuel : Nat) (l : List Nat) (i : Nat), i ∈ buildSliceAux regions fuel l →
      (regions i).is_move_allowed := by
  intro fuel
  induction fuel with
  | zero => intro l i h; simp [buildSliceAux] at h
  | succ fuel ih =>
    intro l i h
    simp only [buildSliceAux] at h
    rcases hc : claimMoveAllowed regions l with _ | ⟨j, rest⟩
    · rw [hc] at h
      simp at h
    · rw [hc] at h
      rcases List.mem_cons.mp h with heq | hmem
      · rw [heq]
        exact claimMoveAllowed_sound regions l j rest hc
      · exact ih rest i hmem

/-- Claim C10: every region handed out by next_from_region (and hence
every region added to any worker slice) is move-allowed, and therefore
no humongous start or continuation region ever appears in a slice; the
Phase 4 assertion that slices carry no humongous regions can never
fail, and Phases 2 and 4 never touch a live humongous object. -/
theorem c10_slices_move_allowed (regions : Nat → Region) (l : List Nat) :
    (∀ (g : List Nat) (i : Nat) (rest : List Nat),
      claimMoveAllowed regions g = some (i, rest) →
        (regions i).is_move_allowed ∧ ¬ (regions i).is_humongous) ∧
    (∀ i ∈ buildSlice regions l,
      (regions i).is_move_allowed ∧ ¬ (regions i).is_humongous) := by
  constructor
  · intro g i rest h
    have hm := claimMoveAllowed_sound regions g i rest h
    exact ⟨hm, move_allowed_not_humongous _ hm⟩
  · intro i h
    have hm := buildSliceAux_sound regions l.length l i h
    exact ⟨hm, move_allowed_not_humongous _ hm⟩

/-- Region table used by the C10 witness: region 2 is a humongous start
region, all others are regular. -/
def wRegions : Nat → Region :=
  fun i => if i = 2 then { wRegion with state := RegionState.humongous_start } else wRegion

/-- Witness for C10: running next_from_region over the sequence [2, 0]
skips the humongous region 2 and the slice member 0 is move-allowed and
not humongous. -/
theorem c10_slices_move_allowed_witness :
    (wRegions 0).is_move_allowed ∧ ¬ (wRegions 0).is_humongous :=
  (c10_slices_move_allowed wRegions [2, 0]).2 0 (by decide)

/-- Pointwise memory write of one word. -/
def writeMem (mem : Nat → Nat) (a v : Nat) : Nat → Nat :=
  fun x => if x = a then v else mem x

/-- Modelled from the spec: Copy::aligned_conjoint_words as an
ascending word-by-word copy of n words from src to dst, each word read
from the memory produced by the previous writes; overlap-safe in the
sliding direction dst ≤ src (utilities/copy.hpp is not among the
sources at hand). -/
def copy_words : (Nat → Nat) → Nat → Nat → Nat → (Nat → Nat)
  | mem, _, _, 0 => mem
  | mem, src, dst, n + 1 => copy_words (writeMem mem dst (mem src)) (src + 1) (dst + 1) n

/-- The ascending copy is overlap-safe when the destination does not
exceed the source: it realizes the ideal conjoint copy, every
destination word receiving the corresponding original source word. -/
theorem copy_words_sem (n : Nat) :
    ∀ (mem : Nat → Nat) (src dst : Nat), dst ≤ src →
      ∀ x, copy_words mem src dst n x =
        if dst ≤ x ∧ x < dst + n then mem (src + (x - dst)) else mem x := by
  induction n with
  | zero =>
    intro mem src dst _ x
    have hc : ¬ (dst ≤ x ∧ x < dst + 0) := by omega
    rw [if_neg hc]
    rfl
  | succ n ih =>
    intro mem src dst hds x
    show copy_words (writeMem mem dst (mem src)) (src + 1) (dst + 1) n x = _
    rw [ih (writeMem mem dst (mem src)) (src + 1) (dst + 1) (by omega) x]
    by_cases h1 : dst + 1 ≤ x ∧ x < dst + 1 + n
    · rw [if_pos h1]
      have harg : src + 1 + (x - (dst + 1)) = src + (x - dst) := by omega
      rw [harg]
      have hne : src + (x - dst) ≠ dst := by omega
      simp only [writeMem]
      rw [if_neg hne]
      have hc : dst ≤ x ∧ x < dst + (n + 1) := by omega
      rw [if_pos hc]
    · rw [if_neg h1]
      by_cases h2 : x = dst
      · subst h2
        have hl : writeMem mem x (mem src) x = mem src := by
          simp [writeMem]
        rw [hl]
        have hc : x ≤ x ∧ x < x + (n + 1) := by omega
        rw [if_pos hc]
        congr 1
        omega
      · simp only [writeMem]
        rw [if_neg h2]
        have hc : ¬ (dst ≤ x ∧ x < dst + (n + 1)) := by omega
        rw [if_neg hc]

/-- State of the Phase 4 mover: machine memory (heap payload words), the
Brooks forwarding table, and the region table. -/
structure CState where
  mem : Nat → Nat
  fwd : Nat → Nat
  regions : Nat → Region

/-- ShenandoahCompactObjectsClosure::do_object for a live object at
address p of psize words: read the target from the forwarding word,
copy the object's words when it moves, and initialize the forwarding
word of the object now at the target address to point to itself
(whether or not the object moved). -/
def CState.compact_object (st : CState) (p psize : Nat) : CState :=
  let compact_to := st.fwd p
  let mem1 := if p ≠ compact_to then copy_words st.mem p compact_to psize else st.mem
  { st with
    mem := mem1
    fwd := fun x => if x = compact_to then compact_to else st.fwd x }

/-- Fold the Phase 4 mover over a list of live objects in order. -/
def foldMoves (st : CState) (objs : List (Nat × Nat)) : CState :=
  objs.foldl (fun s o => s.compact_object o.1 o.2) st

/-- One region of ShenandoahCompactObjectsTask::work: move every live
object of the region, then set the region's top to its new_top. -/
def CState.compact_region (st : CState) (rid : Nat) (objs : List (Nat × Nat)) : CState :=
  let st1 := foldMoves st objs
  { st1 with
    regions := updR st1.regions rid
      ((st1.regions rid).set_top ((st1.regions rid).new_top)) }

/-- ShenandoahCompactObjectsTask::work: walk the worker's slice in
order, compacting each region and repairing its top. -/
def CState.compact_slice (st : CState) (rs : List (Nat × List (Nat × Nat))) : CState :=
  rs.foldl (fun s r => s.compact_region r.1 r.2) st

/-- The live objects of a slice in processing order, across regions. -/
def sliceObjs (rs : List (Nat × List (Nat × Nat))) : List (Nat × Nat) :=
  (rs.map Prod.snd).flatten

/-- The Phase 2 postcondition on a slice's objects as Phase 4 sees them:
in processing order, every object has positive size, its planned target
(read from the forwarding table fwd0) does not exceed its own address
(objects slide downward), and the targets are packed ascending starting
at bound, each target at or after the previous target's end. -/
def movePlanOk (fwd0 : Nat → Nat) : Nat → List (Nat × Nat) → Prop
  | _, [] => True
  | bound, o :: rest =>
      1 ≤ o.2 ∧ fwd0 o.1 ≤ o.1 ∧ bound ≤ fwd0 o.1 ∧
      movePlanOk fwd0 (fwd0 o.1 + o.2) rest

instance instDecMovePlanOk (fwd0 : Nat → Nat) :
    (bound : Nat) → (objs : List (Nat × Nat)) → Decidable (movePlanOk fwd0 bound objs)
  | _, [] => isTrue trivial
  | _, o :: rest =>
    have : Decidable (movePlanOk fwd0 (fwd0 o.1 + o.2) rest) :=
      instDecMovePlanOk fwd0 (fwd0 o.1 + o.2) rest
    inferInstanceAs (Decidable (_ ∧ _))

/-- Post-state correctness of the Phase 4 mover relative to the
pre-move memory mem0 and plan fwd0: every object's planned target range
holds the object's original words, and the forwarding word at the
target points to itself. -/
def movedOk (mem0 fwd0 mem fwd : Nat → Nat) : List (Nat × Nat) → Prop
  | [] => True
  | o :: rest =>
      (∀ k, k < o.2 → mem (fwd0 o.1 + k) = mem0 (o.1 + k)) ∧
      fwd (fwd0 o.1) = fwd0 o.1 ∧
      movedOk mem0 fwd0 mem fwd rest

theorem foldMoves_correct (objs : List (Nat × Nat)) :
    ∀ (st : CState) (mem0 fwd0 : Nat → Nat) (bound : Nat),
      movePlanOk fwd0 bound objs →
      (∀ y, bound ≤ y → st.mem y = mem0 y) →
      (∀ y, bound ≤ y → st.fwd y = fwd0 y) →
      movedOk mem0 fwd0 (foldMoves st objs).mem (foldMoves st objs).fwd objs ∧
      ∀ y, y < bound →
        (foldMoves st objs).mem y = st.mem y ∧ (foldMoves st objs).fwd y = st.fwd y := by
  induction objs with
  | nil =>
    intro st mem0 fwd0 bound _ _ _
    exact ⟨trivial, fun _ _ => ⟨rfl, rfl⟩⟩
  | cons o rest ih =>
    intro st mem0 fwd0 bound hplan hmem hfwd
    obtain ⟨hsz, hdown, hbd, hrest⟩ := hplan
    have hfp : st.fwd o.1 = fwd0 o.1 := hfwd o.1 (by omega)
    have hst1mem : (st.compact_object o.1 o.2).mem =
        if o.1 ≠ fwd0 o.1 then copy_words st.mem o.1 (fwd0 o.1) o.2 else st.mem := by
      show (if o.1 ≠ st.fwd o.1 then copy_words st.mem o.1 (st.fwd o.1) o.2 else st.mem) = _
      rw [hfp]
    have hst1fwd : (st.compact_object o.1 o.2).fwd =
        fun x => if x = fwd0 o.1 then fwd0 o.1 else st.fwd x := by
      show (fun x => if x = st.fwd o.1 then st.fwd o.1 else st.fwd x) = _
      rw [hfp]
    have hmem1_hi : ∀ y, fwd0 o.1 + o.2 ≤ y → (st.compact_object o.1 o.2).mem y = mem0 y := by
      intro y hy
      rw [hst1mem]
      by_cases hmove : o.1 ≠ fwd0 o.1
      · rw [if_pos hmove]
        rw [copy_words_sem o.2 st.mem o.1 (fwd0 o.1) hdown y]
        have hc : ¬ (fwd0 o.1 ≤ y ∧ y < fwd0 o.1 + o.2) := by omega
        rw [if_neg hc]
        exact hmem y (by omega)
      · rw [if_neg hmove]
        exact hmem y (by omega)
    have hfwd1_hi : ∀ y, fwd0 o.1 + o.2 ≤ y → (st.compact_object o.1 o.2).fwd y = fwd0 y := by
      intro y hy
      rw [hst1fwd]
      have hne : y ≠ fwd0 o.1 := by omega
      simp only [if_neg hne]
      exact hfwd y (by omega)
    obtain ⟨ihmoved, ihlow⟩ := ih (st.compact_object o.1 o.2) mem0 fwd0 (fwd0 o.1 + o.2)
      hrest hmem1_hi hfwd1_hi
    have hself_mem : ∀ k, k < o.2 →
        (st.compact_object o.1 o.2).mem (fwd0 o.1 + k) = mem0 (o.1 + k) := by
      intro k hk
      rw [hst1mem]
      by_cases hmove : o.1 ≠ fwd0 o.1
      · rw [if_pos hmove]
        rw [copy_words_sem o.2 st.mem o.1 (fwd0 o.1) hdown (fwd0 o.1 + k)]
        have hc : fwd0 o.1 ≤ fwd0 o.1 + k ∧ fwd0 o.1 + k < fwd0 o.1 + o.2 := by omega
        rw [if_pos hc]
        have harg : o.1 + (fwd0 o.1 + k - fwd0 o.1) = o.1 + k := by omega
        rw [harg]
        exact hmem (o.1 + k) (by omega)
      · rw [if_neg hmove]
        have heq : o.1 = fwd0 o.1 := by omega
        rw [← heq]
        exact hmem (o.1 + k) (by omega)
    have hself_fwd : (st.compact_object o.1 o.2).fwd (fwd0 o.1) = fwd0 o.1 := by
      rw [hst1fwd]
      simp
    refine ⟨⟨?_, ?_, ihmoved⟩, ?_⟩
    · intro k hk
      have hlow := ihlow (fwd0 o.1 + k) (by omega)
      show (foldMoves (st.compact_object o.1 o.2) rest).mem (fwd0 o.1 + k) = mem0 (o.1 + k)
      rw [hlow.1]
      exact hself_mem k hk
    · have hlow := ihlow (fwd0 o.1) (by omega)
      show (foldMoves (st.compact_object o.1 o.2) rest).fwd (fwd0 o.1) = fwd0 o.1
      rw [hlow.2]
      exact hself_fwd
    · intro y hy
      have hlow := ihlow y (by omega)
      constructor
      · show (foldMoves (st.compact_object o.1 o.2) rest).mem y = st.mem y
        rw [hlow.1, hst1mem]
        by_cases hmove : o.1 ≠ fwd0 o.1
        · rw [if_pos hmove]
          rw [copy_words_sem o.2 st.mem o.1 (fwd0 o.1) hdown y]
          have hc : ¬ (fwd0 o.1 ≤ y ∧ y < fwd0 o.1 + o.2) := by omega
          rw [if_neg hc]
        · rw [if_neg hmove]
      · show (foldMoves (st.compact_object o.1 o.2) rest).fwd y = st.fwd y
        rw [hlow.2, hst1fwd]
        have hne : y ≠ fwd0 o.1 := by omega
        simp only [if_neg hne]

theorem foldMoves_regions (objs : List (Nat × Nat)) (st : CState) :
    (foldMoves st objs).regions = st.regions := by
  induction objs generalizing st with
  | nil => rfl
  | cons o rest ih =>
    show (foldMoves (st.compact_object o.1 o.2) rest).regions = st.regions
    rw [ih]
    rfl

theorem foldMoves_congr (objs : List (Nat × Nat)) :
    ∀ (s s' : CState), s.mem = s'.mem → s.fwd = s'.fwd →
      (foldMoves s objs).mem = (foldMoves s' objs).mem ∧
      (foldMoves s objs).fwd = (foldMoves s' objs).fwd := by
  induction objs with
  | nil => intro s s' hm hf; exact ⟨hm, hf⟩
  | cons o rest ih =>
    intro s s' hm hf
    show (foldMoves (s.compact_object o.1 o.2) rest).mem =
        (foldMoves (s'.compact_object o.1 o.2) rest).mem ∧
      (foldMoves (s.compact_object o.1 o.2) rest).fwd =
        (foldMoves (s'.compact_object o.1 o.2) rest).fwd
    refine ih _ _ ?_ ?_
    · show (if o.1 ≠ s.fwd o.1 then copy_words s.mem o.1 (s.fwd o.1) o.2 else s.mem) =
        (if o.1 ≠ s'.fwd o.1 then copy_words s'.mem o.1 (s'.fwd o.1) o.2 else s'.mem)
      rw [hm, hf]
    · show (fun x => if x = s.fwd o.1 then s.fwd o.1 else s.fwd x) =
        (fun x => if x = s'.fwd o.1 then s'.fwd o.1 else s'.fwd x)
      rw [hf]

theorem compact_slice_mem_fwd (rs : List (Nat × List (Nat × Nat))) :
    ∀ (st : CState),
      (st.compact_slice rs).mem = (foldMoves st (sliceObjs rs)).mem ∧
      (st.compact_slice rs).fwd = (foldMoves st (sliceObjs rs)).fwd := by
  induction rs with
  | nil => intro st; exact ⟨rfl, rfl⟩
  | cons r rest ih =>
    intro st
    have hso : sliceObjs (r :: rest) = r.2 ++ sliceObjs rest := by
      simp [sliceObjs]
    rw [hso]
    have hsplit : foldMoves st (r.2 ++ sliceObjs rest) =
        foldMoves (foldMoves st r.2) (sliceObjs rest) := by
      simp [foldMoves, List.foldl_append]
    rw [hsplit]
    show ((st.compact_region r.1 r.2).compact_slice rest).mem = _ ∧
      ((st.compact_region r.1 r.2).compact_slice rest).fwd = _
    obtain ⟨hm, hf⟩ := ih (st.compact_region r.1 r.2)
    obtain ⟨hm2, hf2⟩ := foldMoves_congr (sliceObjs rest)
      (st.compact_region r.1 r.2) (foldMoves st r.2) rfl rfl
    exact ⟨hm.trans hm2, hf.trans hf2⟩

theorem compact_region_regions_other (st : CState) (rid : Nat) (objs : List (Nat × Nat))
    (r : Nat) (h : r ≠ rid) :
    (st.compact_region rid objs).regions r = st.regions r := by
  show (updR (foldMoves st objs).regions rid
      (((foldMoves st objs).regions rid).set_top
        (((foldMoves st objs).regions rid).new_top))) r = st.regions r
  simp only [updR]
  rw [if_neg h, foldMoves_regions]

theorem compact_region_regions_self (st : CState) (rid : Nat) (objs : List (Nat × Nat)) :
    (st.compact_region rid objs).regions rid =
      (st.regions rid).set_top ((st.regions rid).new_top) := by
  show (updR (foldMoves st objs).regions rid
      (((foldMoves st objs).regions rid).set_top
        (((foldMoves st objs).regions rid).new_top))) rid = _
  simp only [updR]
  rw [if_pos trivial, foldMoves_regions]

theorem compact_slice_regions_not_mem (rs : List (Nat × List (Nat × Nat))) :
    ∀ (st : CState) (r : Nat), r ∉ rs.map Prod.fst →
      (st.compact_slice rs).regions r = st.regions r := by
  induction rs with
  | nil => intro st r _; rfl
  | cons a rest ih =>
    intro st r h
    simp only [List.map_cons, List.mem_cons, not_or] at h
    show ((st.compact_region a.1 a.2).compact_slice rest).regions r = st.regions r
    rw [ih _ r h.2, compact_region_regions_other st a.1 a.2 r h.1]

theorem compact_slice_tops (rs : List (Nat × List (Nat × Nat))) :
    ∀ (st : CState), (rs.map Prod.fst).Nodup →
      ∀ r ∈ rs.map Prod.fst,
        ((st.compact_slice rs).regions r).top = (st.regions r).new_top := by
  induction rs with
  | nil => intro st _ r h; simp at h
  | cons a rest ih =>
    intro st hnd r hr
    simp only [List.map_cons, List.nodup_cons] at hnd
    rcases List.mem_cons.mp hr with heq | hmem
    · show (((st.compact_region a.1 a.2).compact_slice rest).regions r).top =
        (st.regions r).new_top
      rw [heq, compact_slice_regions_not_mem rest _ a.1 hnd.1,
        compact_region_regions_self st a.1 a.2]
      rfl
    · have hne : r ≠ a.1 := fun hh => hnd.1 (hh ▸ hmem)
      show (((st.compact_region a.1 a.2).compact_slice rest).regions r).top =
        (st.regions r).new_top
      rw [ih _ hnd.2 r hmem, compact_region_regions_other st a.1 a.2 r hne]

/-- Claim C3: Phase 4 moving. Under the Phase 2 postconditions on the
worker slice (objects slide downward, planned targets packed in
ascending order, region ids distinct), after compact_slice every live
object's planned target range holds exactly the object's original words
(the ascending conjoint copy is overlap-safe and later moves do not
clobber earlier targets), the forwarding word of every object at its
target address points to itself - fwd_get(o) = address_of(o) for every
live o after Phase 4 - and every region's top is set to its new_top. -/
theorem c3_compact_objects (rs : List (Nat × List (Nat × Nat))) (st : CState)
    (hplan : movePlanOk st.fwd 0 (sliceObjs rs))
    (hnd : (rs.map Prod.fst).Nodup) :
    movedOk st.mem st.fwd (st.compact_slice rs).mem (st.compact_slice rs).fwd
      (sliceObjs rs) ∧
    ∀ r ∈ rs.map Prod.fst,
      ((st.compact_slice rs).regions r).top = (st.regions r).new_top := by
  obtain ⟨hm, hf⟩ := compact_slice_mem_fwd rs st
  obtain ⟨hmoved, _⟩ := foldMoves_correct (sliceObjs rs) st st.mem st.fwd 0 hplan
    (fun _ _ => rfl) (fun _ _ => rfl)
  rw [hm, hf]
  exact ⟨hmoved, compact_slice_tops rs st hnd⟩

/-- Concrete mover state for the C3 witness: memory holding value
x + 100 at word x, a plan moving the object at 2 to 1 and the object at
5 to 2, one region. -/
def wCState : CState :=
  { mem := fun x => x + 100
    fwd := fun x => if x = 2 then 1 else if x = 5 then 2 else x
    regions := fun _ => wRegion }

/-- Witness for C3: the two-object plan of wCState satisfies the packing
hypotheses and the mover establishes movedOk and the top update. -/
theorem c3_compact_objects_witness :
    movedOk wCState.mem wCState.fwd
      (wCState.compact_slice [(0, [(2, 1), (5, 1)])]).mem
      (wCState.compact_slice [(0, [(2, 1), (5, 1)])]).fwd
      (sliceObjs [(0, [(2, 1), (5, 1)])]) ∧
    ∀ r ∈ [(0, [(2, 1), (5, 1)])].map Prod.fst,
      ((wCState.compact_slice [(0, [(2, 1), (5, 1)])]).regions r).top =
        (wCState.regions r).new_top :=
  c3_compact_objects [(0, [(2, 1), (5, 1)])] wCState (by decide) (by decide)

/-- ShenandoahAdjustPointersClosure::do_oop_work on one reference slot:
a null reference is left untouched, a non-null reference to oop o is
rewritten to the forwarding target read raw from o's forwarding word. -/
def adjust_oop (fwd : Nat → Nat) : Option Nat → Option Nat
  | none => none
  | some o => some (fwd o)

/-- ShenandoahAdjustPointersObjectClosure::do_object: oop_iterate over
an object's reference fields, adjusting each slot. -/
def adjust_object (fwd : Nat → Nat) (fields : List (Option Nat)) : List (Option Nat) :=
  fields.map (adjust_oop fwd)

/-- ShenandoahAdjustPointersTask::work: workers claim regions one at a
time from the shared cursor; humongous continuation regions are
skipped, for every other region every live object is adjusted. A heap
is a list of regions each carrying its live objects as field lists. -/
def adjust_heap (fwd : Nat → Nat)
    (hp : List (Region × List (List (Option Nat)))) :
    List (Region × List (List (Option Nat))) :=
  hp.map (fun e =>
    if e.1.is_humongous_continuation then e
    else (e.1, e.2.map (adjust_object fwd)))

/-- ShenandoahAdjustRootPointersTask::work: every root slot is adjusted
with the same closure. -/
def adjust_roots (fwd : Nat → Nat) (roots : List (Option Nat)) : List (Option Nat) :=
  roots.map (adjust_oop fwd)

/-- Claim C4: Phase 3 pointer adjustment. A null reference stays null
and a non-null reference to oop o becomes fwd o (the forwarding target
planned in Phase 2, i.e. the post-compaction address of the referent);
this holds for every root slot and for every field of every live object
of every region, humongous continuation regions being skipped
unchanged. -/
theorem c4_adjust_pointers (fwd : Nat → Nat)
    (hp : List (Region × List (List (Option Nat)))) (roots : List (Option Nat)) :
    (adjust_oop fwd none = none ∧ ∀ o, adjust_oop fwd (some o) = some (fwd o)) ∧
    (∀ (i : Nat), (adjust_roots fwd roots)[i]? = (roots[i]?).map (adjust_oop fwd)) ∧
    (∀ (i : Nat) (e : Region × List (List (Option Nat))), hp[i]? = some e →
      (e.1.is_humongous_continuation → (adjust_heap fwd hp)[i]? = some e) ∧
      (¬ e.1.is_humongous_continuation →
        (adjust_heap fwd hp)[i]? =
          some (e.1, e.2.map (fun fields => fields.map (adjust_oop fwd))))) := by
  refine ⟨⟨rfl, fun _ => rfl⟩, ?_, ?_⟩
  · intro i
    simp [adjust_roots, List.getElem?_map]
  · intro i e he
    constructor
    · intro hcont
      simp only [adjust_heap, List.getElem?_map, he, Option.map_some']
      rw [if_pos hcont]
    · intro hcont
      simp only [adjust_heap, List.getElem?_map, he, Option.map_some']
      rw [if_neg hcont]
      rfl

/-- Witness for C4 at a concrete heap: one regular (non-continuation)
region holding one object with a non-null and a null field is adjusted
field by field under the C3 witness plan as forwarding table. -/
theorem c4_adjust_pointers_witness :
    (adjust_heap wCState.fwd [(wRegion, [[some 2, none]])])[0]? =
      some (wRegion, [[some 2, none]].map
        (fun fields => fields.map (adjust_oop wCState.fwd))) :=
  ((c4_adjust_pointers wCState.fwd [(wRegion, [[some 2, none]])] [some 5, none]).2.2
    0 (wRegion, [[some 2, none]]) (by decide)).2 (by decide)

/-- Heap-side state touched by the Post-Compact pass: the collection
set and free set (region index lists), the complete-top-at-mark-start
table keyed by region bottom, the closure's running live accumulator,
and the heap's used counter. -/
structure PostHeap where
  cset : List Nat
  free : List Nat
  complete_tams : Nat → Nat
  live_acc : Nat
  used : Nat

/-- The region reclassification of
ShenandoahPostCompactClosure::heap_region_do: with live = used() =
top - bottom, a lingering non-empty cset region is demoted to regular,
a regular-or-cset region with no live data is made trash, any trash
region is recycled with live reset to 0, and the final live is recorded
as the region's live_data (allocation statistics are not modelled). -/
def post_transform (r : Region) : Region :=
  let live := r.used
  let r1 := if r.is_cset ∧ live ≠ 0 then r.make_regular_bypass else r
  let r2 := if (r1.is_regular ∨ r1.is_cset) ∧ live = 0 then r1.make_trash else r1
  let lr3 := if r2.is_trash then ((0 : Nat), r2.recycle) else (live, r2)
  { lr3.2 with live_data := lr3.1 }

/-- ShenandoahPostCompactClosure::heap_region_do for region r with
index idx: reset complete-top-at-mark-start to bottom, reclassify, and
if the result is allocation-allowed remove it from the collection set
when present and append it to the free set; accumulate its live. -/
def post_region_do (h : PostHeap) (idx : Nat) (r : Region) : PostHeap × Region :=
  let h0 := { h with complete_tams := writeMem h.complete_tams r.bottom r.bottom }
  let r4 := post_transform r
  let h1 := if r4.is_alloc_allowed then
      { h0 with
        cset := if idx ∈ h0.cset then h0.cset.erase idx else h0.cset
        free := h0.free ++ [idx] }
    else h0
  ({ h1 with live_acc := h1.live_acc + r4.live_data }, r4)

/-- Fold of the post-compact closure over the indexed region sequence. -/
def post_compact_regions (h : PostHeap) : List (Nat × Region) → PostHeap × List (Nat × Region)
  | [] => (h, [])
  | e :: rest =>
    let pr := post_region_do h e.1 e.2
    let res := post_compact_regions pr.1 rest
    (res.1, (e.1, pr.2) :: res.2)

/-- Tail of ShenandoahMarkCompact::phase4_compact_objects: run the
post-compact closure over all regions under the heap lock, set the
heap's used to the accumulated live, then clear the collection set. -/
def phase4_post (h : PostHeap) (regions : List (Nat × Region)) :
    PostHeap × List (Nat × Region) :=
  let res := post_compact_regions h regions
  ({ res.1 with used := res.1.live_acc, cset := [] }, res.2)

theorem post_compact_regions_spec (rs : List (Nat × Region)) :
    ∀ (h : PostHeap),
      (post_compact_regions h rs).1.live_acc =
        h.live_acc + (((post_compact_regions h rs).2).map (fun e => e.2.live_data)).sum ∧
      (post_compact_regions h rs).2 = rs.map (fun e => (e.1, post_transform e.2)) := by
  induction rs with
  | nil => intro h; exact ⟨by simp [post_compact_regions], rfl⟩
  | cons e rest ih =>
    intro h
    obtain ⟨ha, hl⟩ := ih (post_region_do h e.1 e.2).1
    have hstep : (post_region_do h e.1 e.2).1.live_acc =
        h.live_acc + (post_transform e.2).live_data := by
      simp only [post_region_do]
      split <;> rfl
    constructor
    · show (post_compact_regions (post_region_do h e.1 e.2).1 rest).1.live_acc =
        h.live_acc + (((e.1, post_transform e.2) ::
          (post_compact_regions (post_region_do h e.1 e.2).1 rest).2).map
            (fun e => e.2.live_data)).sum
      rw [ha, hstep]
      simp only [List.map_cons, List.sum_cons]
      omega
    · show (e.1, post_transform e.2) ::
        (post_compact_regions (post_region_do h e.1 e.2).1 rest).2 = _
      rw [hl]
      rfl

/-- Claim C5: Post-Compact. With live = used() = top - bottom: a cset
region with live data is demoted to regular; a regular-or-cset region
with live = 0 is made trash; a trash region is recycled with live 0
(made-trash regions included); every allocation-allowed region is added
to the free set and, when the collection set is duplicate-free, no
longer in the collection set; afterwards the heap's used equals the sum
of the recorded live over all regions and the collection set is
cleared. -/
theorem c5_post_compact (h : PostHeap) (rs : List (Nat × Region)) :
    (∀ r : Region, r.is_cset → r.used ≠ 0 → (post_transform r).is_regular) ∧
    (∀ r : Region, r.is_regular ∨ r.is_cset → r.used = 0 →
      (post_transform r).state = RegionState.empty_committed ∧
      (post_transform r).live_data = 0) ∧
    (∀ r : Region, r.is_trash →
      (post_transform r).state = RegionState.empty_committed ∧
      (post_transform r).live_data = 0) ∧
    (∀ (h' : PostHeap) (idx : Nat) (r : Region),
      (post_transform r).is_alloc_allowed →
        idx ∈ (post_region_do h' idx r).1.free ∧
        (h'.cset.Nodup → idx ∉ (post_region_do h' idx r).1.cset)) ∧
    ((phase4_post h rs).1.used =
      h.live_acc + (((phase4_post h rs).2).map (fun e => e.2.live_data)).sum ∧
     (phase4_post h rs).1.cset = []) := by
  refine ⟨?_, ?_, ?_, ?_, ?_, rfl⟩
  · intro r hc hl
    have hc' : r.state = RegionState.cset := hc
    simp [post_transform, Region.is_cset, Region.is_trash, Region.is_regular,
      Region.make_regular_bypass, Region.make_trash, Region.recycle, hc', hl]
  · intro r hrc hu
    rcases hrc with hr | hr
    · have hr' : r.state = RegionState.regular := hr
      simp [post_transform, Region.is_cset, Region.is_trash, Region.is_regular,
        Region.make_regular_bypass, Region.make_trash, Region.recycle, hr', hu]
    · have hr' : r.state = RegionState.cset := hr
      simp [post_transform, Region.is_cset, Region.is_trash, Region.is_regular,
        Region.make_regular_bypass, Region.make_trash, Region.recycle, hr', hu]
  · intro r ht
    have ht' : r.state = RegionState.trash := ht
    simp [post_transform, Region.is_cset, Region.is_trash, Region.is_regular,
      Region.make_regular_bypass, Region.make_trash, Region.recycle, ht']
  · intro h' idx r halloc
    simp only [post_region_do]
    rw [if_pos halloc]
    constructor
    · simp
    · intro hnd
      by_cases hmem : idx ∈ h'.cset
      · show idx ∉ (if idx ∈ h'.cset then h'.cset.erase idx else h'.cset)
        rw [if_pos hmem]
        intro hin
        have := (List.Nodup.mem_erase_iff hnd).mp hin
        exact this.1 rfl
      · show idx ∉ (if idx ∈ h'.cset then h'.cset.erase idx else h'.cset)
        rw [if_neg hmem]
        exact hmem
  · show (post_compact_regions h rs).1.live_acc =
      h.live_acc + (((post_compact_regions h rs).2).map (fun e => e.2.live_data)).sum
    exact (post_compact_regions_spec rs h).1

/-- Concrete post-compact heap state used by the C5 witness. -/
def wPostHeap : PostHeap :=
  { cset := [0]
    free := []
    complete_tams := fun _ => 0
    live_acc := 0
    used := 0 }

/-- Concrete cset region with one live word, used by the C5 witness. -/
def wCsetRegion : Region :=
  { wRegion with state := RegionState.cset, top := 1 }

/-- Witness for C5: the cset demotion clause at a concrete cset region
with one live word. -/
theorem c5_post_compact_witness : (post_transform wCsetRegion).is_regular :=
  (c5_post_compact wPostHeap []).1 wCsetRegion (by decide) (by decide)

/-- Modelled from the spec: the continuation-trashing part of
ShenandoahHeap::trash_humongous_region_at - after the start region,
every following humongous continuation region of the object is trashed,
stopping at the first region that is not a continuation. -/
def trashConts : List Region → List Region
  | [] => []
  | r :: rest =>
    if r.is_humongous_continuation then r.make_trash :: trashConts rest
    else r :: rest

theorem trashConts_length (l : List Region) : (trashConts l).length = l.length := by
  induction l with
  | nil => rfl
  | cons r rest ih =>
    simp only [trashConts]
    split <;> simp [ih]

/-- ShenandoahMCReclaimHumongousRegionClosure over the region sequence:
each humongous_start region whose head object (at bottom +
fwdHeaderSize) is not marked in the complete bitmap is trashed together
with its continuation regions; every other region is left unchanged and
iteration continues. -/
def reclaimHumongous (marked : Nat → Bool) : List Region → List Region
  | [] => []
  | r :: rest =>
    if r.is_humongous_start ∧ marked (r.bottom + fwdHeaderSize) = false then
      r.make_trash :: reclaimHumongous marked (trashConts rest)
    else r :: reclaimHumongous marked rest
  termination_by l => l.length
  decreasing_by
    · simp [trashConts_length]
    · simp

theorem trashConts_block (conts : List Region) (rest : List Region)
    (hc : ∀ c ∈ conts, c.is_humongous_continuation)
    (hr : ∀ r0 ∈ rest.head?, ¬ r0.is_humongous_continuation) :
    trashConts (conts ++ rest) = conts.map Region.make_trash ++ rest := by
  induction conts with
  | nil =>
    rcases hrest : rest with _ | ⟨r0, rest'⟩
    · rfl
    · simp only [List.nil_append, List.map_nil, trashConts]
      rw [if_neg]
      exact hr r0 (by simp [hrest])
  | cons c conts' ih =>
    simp only [List.cons_append, trashConts, List.map_cons]
    rw [if_pos (hc c (List.mem_cons_self c conts'))]
    exact congrArg (fun t => c.make_trash :: t)
      (ih (fun x hx => hc x (List.mem_cons_of_mem c hx)))

theorem reclaimHumongous_skips_trash (marked : Nat → Bool) (pre : List Region)
    (rest : List Region)
    (hp : ∀ p ∈ pre, p.is_trash) :
    reclaimHumongous marked (pre ++ rest) = pre ++ reclaimHumongous marked rest := by
  induction pre with
  | nil => rfl
  | cons p pre' ih =>
    simp only [List.cons_append, reclaimHumongous]
    rw [if_neg]
    · rw [ih (fun x hx => hp x (List.mem_cons_of_mem p hx))]
    · intro hh
      have hps : p.state = RegionState.trash := hp p (List.mem_cons_self p pre')
      have hh1 : p.state = RegionState.humongous_start := hh.1
      rw [hps] at hh1
      exact absurd hh1 (by decide)

/-- Claim C6: the single-threaded humongous sweep at the start of
Phase 2. For a humongous object laid out as a start region followed by
its continuation block (the next non-continuation region ending the
block): when the head object at bottom + fwdHeaderSize is not marked in
the complete bitmap, the start region and the whole continuation block
are trashed and the sweep continues past them; when the head object is
marked the start region is left in place and is not move-allowed, so it
is never claimed by the subsequent planning. -/
theorem c6_humongous_sweep (marked : Nat → Bool) (r : Region)
    (conts rest : List Region)
    (hstart : r.is_humongous_start)
    (hconts : ∀ c ∈ conts, c.is_humongous_continuation)
    (hrest : ∀ r0 ∈ rest.head?, ¬ r0.is_humongous_continuation) :
    (marked (r.bottom + fwdHeaderSize) = false →
      reclaimHumongous marked (r :: (conts ++ rest)) =
        (r.make_trash :: conts.map Region.make_trash) ++ reclaimHumongous marked rest) ∧
    (marked (r.bottom + fwdHeaderSize) = true →
      reclaimHumongous marked (r :: (conts ++ rest)) =
        r :: reclaimHumongous marked (conts ++ rest) ∧
      ¬ r.is_move_allowed) := by
  constructor
  · intro hm
    show reclaimHumongous marked (r :: (conts ++ rest)) = _
    rw [reclaimHumongous]
    rw [if_pos ⟨hstart, hm⟩]
    rw [trashConts_block conts rest hconts hrest]
    rw [reclaimHumongous_skips_trash marked (conts.map Region.make_trash) rest]
    · simp
    · intro p hp
      obtain ⟨c, _, hc⟩ := List.mem_map.mp hp
      rw [← hc]
      rfl
  · intro hm
    constructor
    · rw [reclaimHumongous]
      rw [if_neg]
      intro hh
      rw [hm] at hh
      exact absurd hh.2 (by decide)
    · intro hmv
      have hs : r.state = RegionState.humongous_start := hstart
      rcases hmv with hv | hv
      · have hv' : r.state = RegionState.regular := hv
        rw [hs] at hv'
        exact absurd hv' (by decide)
      · have hv' : r.state = RegionState.cset := hv
        rw [hs] at hv'
        exact absurd hv' (by decide)

/-- Concrete humongous regions for the C6 witness. -/
def wHumStart : Region := { wRegion with state := RegionState.humongous_start }

/-- Concrete continuation region for the C6 witness. -/
def wHumCont : Region := { wRegion with state := RegionState.humongous_continuation }

/-- Witness for C6: a three-region humongous object with unmarked head,
followed by a regular region, is entirely trashed by the sweep. -/
theorem c6_humongous_sweep_witness :
    reclaimHumongous (fun _ => false) (wHumStart :: ([wHumCont, wHumCont] ++ [wRegion])) =
      (wHumStart.make_trash :: [wHumCont, wHumCont].map Region.make_trash) ++
        reclaimHumongous (fun _ => false) [wRegion] :=
  (c6_humongous_sweep (fun _ => false) wHumStart [wHumCont, wHumCont] [wRegion]
    (by decide) (by decide) (by decide)).1 rfl

/-- ShenandoahEnsureHeapActiveClosure::heap_region_do: recycle the
region when it is trash, then promote it to regular (bypass) when it is
empty; afterwards the region is active. -/
def ensure_active_do (r : Region) : Region :=
  let r1 := if r.is_trash then r.recycle else r
  if r1.is_empty then r1.make_regular_bypass else r1

/-- ShenandoahClearRegionStatusClosure::heap_region_do: set
next-top-at-mark-start to the region's top, clear its live data, and
set the concurrent-iteration safe limit to top. -/
def clear_status_do (r : Region) : Region :=
  { r with next_top_at_mark_start := r.top, live_data := 0, safe_limit := r.top }

/-- The Prepare stage's region passes in do_it: the ensure-active pass
over all regions, then the clear-status pass over all regions. -/
def prepare_regions (l : List Region) : List Region :=
  (l.map ensure_active_do).map clear_status_do

theorem ensure_active_do_active (r : Region) : (ensure_active_do r).is_active := by
  rcases hs : r.state with _ | _ | _ | _ | _ | _ | _ | _ <;>
    simp [ensure_active_do, Region.is_trash, Region.is_empty, Region.is_active,
      Region.recycle, Region.make_regular_bypass, hs]

/-- Claim C7: the Prepare region passes. A trash region is recycled
(and, being then committed-empty, promoted to regular); an
empty_uncommitted region is promoted to regular (bypass); after the
ensure-active pass every region is active; and the subsequent
clear-status pass gives every region next-top-at-mark-start = top,
cleared live data, and concurrent-iteration safe limit = top, while
preserving its (active) state. -/
theorem c7_prepare_regions (l : List Region) :
    (∀ r : Region, r.is_trash → ensure_active_do r = r.recycle.make_regular_bypass) ∧
    (∀ r : Region, r.state = RegionState.empty_uncommitted →
      ensure_active_do r = r.make_regular_bypass) ∧
    (∀ r : Region, (ensure_active_do r).is_active) ∧
    (∀ (i : Nat) (r0 : Region), l[i]? = some r0 →
      (prepare_regions l)[i]? = some (clear_status_do (ensure_active_do r0)) ∧
      (clear_status_do (ensure_active_do r0)).is_active ∧
      (clear_status_do (ensure_active_do r0)).next_top_at_mark_start =
        (clear_status_do (ensure_active_do r0)).top ∧
      (clear_status_do (ensure_active_do r0)).live_data = 0 ∧
      (clear_status_do (ensure_active_do r0)).safe_limit =
        (clear_status_do (ensure_active_do r0)).top) := by
  refine ⟨?_, ?_, ensure_active_do_active, ?_⟩
  · intro r ht
    have ht' : r.state = RegionState.trash := ht
    simp [ensure_active_do, Region.is_trash, Region.is_empty, Region.recycle,
      Region.make_regular_bypass, ht']
  · intro r he
    simp [ensure_active_do, Region.is_trash, Region.is_empty,
      Region.make_regular_bypass, he]
  · intro i r0 h0
    refine ⟨?_, ?_, rfl, rfl, rfl⟩
    · simp only [prepare_regions, List.getElem?_map, h0, Option.map_some']
    · show (ensure_active_do r0).is_active
      exact ensure_active_do_active r0

/-- Witness for C7 at a concrete one-region heap whose region is trash. -/
theorem c7_prepare_regions_witness :
    (prepare_regions [wRegion.make_trash])[0]? =
      some (clear_status_do (ensure_active_do wRegion.make_trash)) ∧
    (clear_status_do (ensure_active_do wRegion.make_trash)).is_active ∧
    (clear_status_do (ensure_active_do wRegion.make_trash)).next_top_at_mark_start =
      (clear_status_do (ensure_active_do wRegion.make_trash)).top ∧
    (clear_status_do (ensure_active_do wRegion.make_trash)).live_data = 0 ∧
    (clear_status_do (ensure_active_do wRegion.make_trash)).safe_limit =
      (clear_status_do (ensure_active_do wRegion.make_trash)).top :=
  (c7_prepare_regions [wRegion.make_trash]).2.2.2 0 wRegion.make_trash (by decide)
